import Mathlib

/-
Verification of the Bitbucket webhook push-event pipeline
(src/sentry_plugins/bitbucket/endpoints/webhook.py).

The embedding models strings as lists of characters, the datastore as an
explicit record of row lists, and the external collaborators
(RepositoryProvider.should_ignore_commit, dateutil parsing, JSON decoding)
as function parameters.  Fallible Python code (an uncaught exception) is
modelled with Option / an explicit error component.
-/

namespace Bitbucket

abbrev Str := List Char

/-! ### parse_raw_user

The source computes re.search with pattern (?<=<).*(?=>$) over the raw
author string and takes group(0); when the search fails, .group(0) raises
AttributeError, modelled here as none.

re.search semantics for this pattern: the match starts at the leftmost
position s with s >= 1 and raw[s-1] = the character <; from there the
greedy .* consumes the longest run of non-newline characters ending at a
position e where raw[e] = the character > and the anchor holds (e+1 is the
end of the string, or raw[e+1] is a newline that ends the string).
-/

/-- Python regex anchor at position i of the string: end of string, or just
before a newline that is the last character. -/
def dollarAt (raw : Str) (i : Nat) : Bool :=
  i == raw.length || (raw.get? i == some '\n' && i + 1 == raw.length)

/-- The pattern body can end at position e when started at s: the consumed
characters raw[s..e-1] contain no newline, raw[e] is the character > and the
anchor holds right after it. -/
def validEnd (raw : Str) (s e : Nat) : Bool :=
  decide (s ≤ e) && raw.get? e == some '>' && dollarAt raw (e + 1) &&
    ((raw.drop s).take (e - s)).all (fun ch => ch != '\n')

/-- Greedy scan for the largest valid end position, counting down from the
second argument. -/
def scanEnd (raw : Str) (s : Nat) : Nat → Option Nat
  | 0 => if validEnd raw s 0 then some 0 else none
  | e + 1 => if validEnd raw s (e + 1) then some (e + 1) else scanEnd raw s e

/-- A search can succeed starting at position s: the lookbehind sees the
character < and some end position completes the match. -/
def validStart (raw : Str) (s : Nat) : Bool :=
  decide (0 < s) && raw.get? (s - 1) == some '<' && (scanEnd raw s raw.length).isSome

/-- Leftmost-position scan of re.search, with explicit fuel covering all
start positions 0..raw.length. -/
def scanStart (raw : Str) : Nat → Nat → Option Nat
  | _, 0 => none
  | s, fuel + 1 => if validStart raw s then some s else scanStart raw (s + 1) fuel

/-- parse_raw_user from webhook.py: some extracted segment, or none when
re.search returns None (in which case the Python code raises
AttributeError on .group(0)). -/
def parse_raw_user (raw : Str) : Option Str :=
  match scanStart raw 0 (raw.length + 1) with
  | none => none
  | some s =>
    match scanEnd raw s raw.length with
    | none => none
    | some e => some ((raw.drop s).take (e - s))

/-- Python str.strip on whitespace. -/
def pyStrip (s : Str) : Str :=
  ((s.dropWhile Char.isWhitespace).reverse.dropWhile Char.isWhitespace).reverse

/-- The display name derivation on author creation:
commit[author][raw].split(the character <)[0].strip(). -/
def nameFromRaw (raw : Str) : Str :=
  pyStrip (raw.takeWhile (fun ch => ch != '<'))

/-! ### Data model -/

/-- A sentry Repository row, restricted to the fields the webhook touches;
config_name models repo.config.get with key name. -/
structure RepoRow where
  id : Nat
  organization_id : Nat
  provider : Str
  external_id : Str
  config_name : Option Str
deriving DecidableEq

/-- A sentry CommitAuthor row. -/
structure AuthorRow where
  id : Nat
  organization_id : Nat
  email : Str
  name : Str
deriving DecidableEq

/-- A sentry Commit row; author is an optional CommitAuthor id,
date_added holds the (collaborator-parsed) date. -/
structure CommitRow where
  repository_id : Nat
  organization_id : Nat
  key : Str
  message : Str
  author : Option Nat
  date_added : Str
deriving DecidableEq

/-- The datastore: organizations (ids only), repositories, commit authors,
commits, plus the next fresh CommitAuthor primary key. -/
structure Storage where
  orgs : List Nat
  repos : List RepoRow
  authors : List AuthorRow
  commits : List CommitRow
  next_author_id : Nat
deriving DecidableEq

/-- One entry of change[commits] in a push-event payload. -/
structure CommitData where
  hash : Str
  message : Str
  author_raw : Str
  date : Str
deriving DecidableEq

/-- One entry of event[push][changes]; commits is optional because the
source reads change.get with a default of the empty list. -/
structure Change where
  commits : Option (List CommitData)
deriving DecidableEq

/-- The consumed subset of the push-event payload. -/
structure PushPayload where
  repo_uuid : Str
  repo_full_name : Str
  changes : List Change
deriving DecidableEq

/-- The per-request authors memo of PushEventWebhook: email to author id. -/
abbrev Memo := List (Str × Nat)

/-! ### Storage operations (collaborator contracts from sentry.models) -/

/-- CommitAuthor.objects.get_or_create keyed on (organization_id, email):
an atomic get-or-create against the uniqueness constraint; creation uses
the supplied default name and a fresh id. -/
def getOrCreateAuthor (st : Storage) (orgId : Nat) (email name : Str) : Nat × Storage :=
  match st.authors.find? (fun a => a.organization_id == orgId && a.email == email) with
  | some a => (a.id, st)
  | none =>
    (st.next_author_id,
     { st with
        authors := st.authors ++
          [{ id := st.next_author_id, organization_id := orgId,
             email := email, name := name }],
        next_author_id := st.next_author_id + 1 })

/-- Commit.objects.create inside transaction.atomic with IntegrityError
swallowed: the insert is dropped when a row with the same
(repository_id, key) already exists, otherwise the row is appended. -/
def createCommit (st : Storage) (row : CommitRow) : Storage :=
  if st.commits.any (fun r => r.repository_id == row.repository_id && r.key == row.key)
  then st
  else { st with commits := st.commits ++ [row] }

/-- The author-resolution block of the push handler: oversized emails get a
null author with no lookup; otherwise the per-request memo is consulted
before get_or_create. Returns (author id option, memo, storage). -/
def resolveAuthor (orgId : Nat) (raw : Str) (email : Str) (m : Memo) (st : Storage) :
    Option Nat × Memo × Storage :=
  if 75 < email.length then (none, m, st)
  else
    match m.lookup email with
    | some aid => (some aid, m, st)
    | none =>
      let r := getOrCreateAuthor st orgId email (nameFromRaw raw)
      (some r.1, (email, r.1) :: m, r.2)

/-- The body of the inner commit loop of PushEventWebhook.__call__.
none models the uncaught AttributeError raised when parse_raw_user fails,
which happens before any write for this commit. -/
def processCommit (si : Str → Bool) (pd : Str → Str) (orgId repoId : Nat)
    (c : CommitData) (m : Memo) (st : Storage) : Option (Memo × Storage) :=
  if si c.message then some (m, st)
  else
    match parse_raw_user c.author_raw with
    | none => none
    | some email =>
      let r := resolveAuthor orgId c.author_raw email m st
      some (r.2.1, createCommit r.2.2
        { repository_id := repoId, organization_id := orgId, key := c.hash,
          message := c.message, author := r.1, date_added := pd c.date })

/-- The commit loop over one change; the Bool is true when an uncaught
exception aborted the loop (storage keeps the writes made so far). -/
def processCommits (si : Str → Bool) (pd : Str → Str) (orgId repoId : Nat) :
    List CommitData → Memo → Storage → Memo × Storage × Bool
  | [], m, st => (m, st, false)
  | c :: cs, m, st =>
    match processCommit si pd orgId repoId c m st with
    | none => (m, st, true)
    | some (m1, st1) => processCommits si pd orgId repoId cs m1 st1

/-- The change loop of PushEventWebhook.__call__; a crash in a change
aborts the remaining changes. -/
def processChanges (si : Str → Bool) (pd : Str → Str) (orgId repoId : Nat) :
    List Change → Memo → Storage → Memo × Storage × Bool
  | [], m, st => (m, st, false)
  | ch :: chs, m, st =>
    match processCommits si pd orgId repoId (ch.commits.getD []) m st with
    | (m1, st1, true) => (m1, st1, true)
    | (m1, st1, false) => processChanges si pd orgId repoId chs m1 st1

/-- Outcome of PushEventWebhook.__call__: Http404 for an unregistered
repository, or the uncaught author-parse exception. -/
inductive PushErr
  | notFound
  | authorCrash
deriving DecidableEq

/-- The Repository.objects.get filter of the push handler. -/
def repoQuery (orgId : Nat) (uuid : Str) (r : RepoRow) : Bool :=
  r.organization_id == orgId && r.provider == "bitbucket".data && r.external_id == uuid

/-- repo.config[name] = full_name; repo.save(): update the stored name of
every row with the given primary key. -/
def updateName (repos : List RepoRow) (rid : Nat) (nm : Str) : List RepoRow :=
  repos.map (fun r => if r.id = rid then { r with config_name := some nm } else r)

/-- PushEventWebhook.__call__: repository lookup (Http404 on absence), name
sync, then the change/commit loops.  si is
RepositoryProvider.should_ignore_commit and pd the dateutil date
normalization, both external collaborators. -/
def pushEventWebhook (si : Str → Bool) (pd : Str → Str) (st : Storage)
    (orgId : Nat) (ev : PushPayload) : Storage × Option PushErr :=
  match st.repos.find? (repoQuery orgId ev.repo_uuid) with
  | none => (st, some PushErr.notFound)
  | some repo =>
    let st1 := if repo.config_name = some ev.repo_full_name then st
               else { st with repos := updateName st.repos repo.id ev.repo_full_name }
    match processChanges si pd orgId repo.id ev.changes [] st1 with
    | (_, st2, true) => (st2, some PushErr.authorCrash)
    | (_, st2, false) => (st2, none)

/-! ### HTTP endpoint -/

/-- An inbound request: method, raw body, the X-Event-Key header if
present, and the parsed source IPv4 address as a 32-bit value. -/
structure Request where
  method : Str
  body : Str
  event_key : Option Str
  remote_addr : Nat
deriving DecidableEq

/-- The handler registry _handlers has a single entry. -/
inductive HandlerTag
  | push
deriving DecidableEq

/-- BitbucketWebhookEndpoint.get_handler over the static mapping. -/
def get_handler (k : Str) : Option HandlerTag :=
  if k = "repo:push".data then some HandlerTag.push else none

/-- The /24 network 104.192.143.0 as the value of its upper 24 bits. -/
def BITBUCKET_IP_NET : Nat := 104 * 65536 + 192 * 256 + 143

/-- Membership of an IPv4 address in BITBUCKET_IP_RANGE. -/
def inBitbucketRange (ip : Nat) : Bool := ip / 256 == BITBUCKET_IP_NET

/-- BitbucketWebhookEndpoint.dispatch + post: the full gate in source
order (method, organization cache lookup, body, event header, handler
dispatch, IP allow-list, JSON decode, handler invocation), returning the
HTTP status and the resulting storage.  dec is the JSON decoding
collaborator; Http404 from the handler maps to 404 and the uncaught
exception to 500. -/
def post (si : Str → Bool) (pd : Str → Str) (dec : Str → Option PushPayload)
    (st : Storage) (req : Request) (organization_id : Nat) : Nat × Storage :=
  if req.method ≠ "POST".data then (405, st)
  else if ¬ st.orgs.contains organization_id then (400, st)
  else if req.body = [] then (400, st)
  else
    match req.event_key with
    | none => (400, st)
    | some k =>
      match get_handler k with
      | none => (204, st)
      | some HandlerTag.push =>
        if ¬ inBitbucketRange req.remote_addr then (401, st)
        else
          match dec req.body with
          | none => (400, st)
          | some ev =>
            match pushEventWebhook si pd st organization_id ev with
            | (st1, none) => (204, st1)
            | (st1, some PushErr.notFound) => (404, st1)
            | (st1, some PushErr.authorCrash) => (500, st1)

/-! ### Verification-layer definitions -/

/-- The second list extends the first at the end. -/
def Grows {α : Type} (xs ys : List α) : Prop := ∃ zs, ys = xs ++ zs

/-- How one storage state relates to a later one along handler execution:
organizations and repositories untouched, author and commit tables only
appended to. -/
structure Ext (s t : Storage) : Prop where
  orgs_eq : t.orgs = s.orgs
  repos_eq : t.repos = s.repos
  authors_gr : Grows s.authors t.authors
  commits_gr : Grows s.commits t.commits

/-- Every memoized email has a matching author row in storage. -/
def MemoOk (orgId : Nat) (m : Memo) (authors : List AuthorRow) : Prop :=
  ∀ p ∈ m, ∃ a ∈ authors, a.organization_id = orgId ∧ a.email = p.1

/-- The CommitAuthor uniqueness invariant: rows agreeing on
(organization, email) are the same row. -/
def AuthorInv (l : List AuthorRow) : Prop :=
  ∀ a ∈ l, ∀ b ∈ l, a.organization_id = b.organization_id → a.email = b.email → a = b

/-- An atomic author-affecting storage operation: a whole push-handler
invocation, or a bare get_or_create attempt (organization, email, name).
Lists of these cover any interleaving of concurrent deliveries, because
the storage layer serializes the individual atomic operations. -/
abbrev AuthorOp := Sum (Nat × PushPayload) (Nat × Str × Str)

def applyOp (si : Str → Bool) (pd : Str → Str) (st : Storage) : AuthorOp → Storage
  | Sum.inl (orgId, ev) => (pushEventWebhook si pd st orgId ev).1
  | Sum.inr (orgId, email, name) => (getOrCreateAuthor st orgId email name).2

def applyOps (si : Str → Bool) (pd : Str → Str) (ops : List AuthorOp) (st : Storage) :
    Storage :=
  ops.foldl (applyOp si pd) st

/-! ### Concrete fixtures for witnesses and counterexamples -/

/-- An ignore predicate that never fires. -/
def si0 : Str → Bool := fun _ => false

/-- An ignore predicate matching one message. -/
def siSkip : Str → Bool := fun msg => msg == "skip".data

/-- A date normalization collaborator (identity). -/
def pd0 : Str → Str := fun s => s

/-- A JSON decoding collaborator. -/
def decode0 : Str → Option PushPayload := fun _ => none

def repo1 : RepoRow :=
  { id := 1, organization_id := 1, provider := "bitbucket".data,
    external_id := "u1".data, config_name := some "r/n".data }

def stBase : Storage :=
  { orgs := [1], repos := [repo1], authors := [], commits := [], next_author_id := 0 }

/-- A commit whose author string has no angle brackets. -/
def cCrash : CommitData :=
  { hash := "h1".data, message := "m1".data,
    author_raw := "John Doe".data, date := "d1".data }

/-- A well-formed commit. -/
def cGood : CommitData :=
  { hash := "h2".data, message := "m2".data,
    author_raw := "Ann <a@b>".data, date := "d2".data }

/-- A payload whose only commit has an author string without angle
brackets. -/
def evCrash : PushPayload :=
  { repo_uuid := "u1".data, repo_full_name := "r/n".data,
    changes := [{ commits := some [cCrash] }] }

/-- A payload with an unparseable-author commit followed by a well-formed
commit. -/
def evAbort : PushPayload :=
  { repo_uuid := "u1".data, repo_full_name := "r/n".data,
    changes := [{ commits := some [cCrash, cGood] }] }

/-- A pre-existing row for commit key h1 of repository 1. -/
def rowOld : CommitRow :=
  { repository_id := 1, organization_id := 1, key := "h1".data,
    message := "old".data, author := none, date_added := "d0".data }

/-- Storage already holding the commit key h1 for repository 1, so a
re-delivered insert for it fails as a duplicate. -/
def stDup : Storage :=
  { orgs := [1], repos := [repo1], authors := [], commits := [rowOld],
    next_author_id := 0 }

/-- A commit delivering key h1 again, now from a fresh author. -/
def cDup : CommitData :=
  { hash := "h1".data, message := "m1".data,
    author_raw := "Bob <b@x>".data, date := "d1".data }

/-- A payload delivering commit h1 again, now with a fresh author. -/
def evDup : PushPayload :=
  { repo_uuid := "u1".data, repo_full_name := "r/n".data,
    changes := [{ commits := some [cDup] }] }

def longEmail : Str := List.replicate 76 'a'

/-- A commit whose extracted email has 76 characters. -/
def cLong : CommitData :=
  { hash := "h7".data, message := "m7".data,
    author_raw := "X <".data ++ longEmail ++ ">".data, date := "d7".data }

def cSkip : CommitData :=
  { hash := "h9".data, message := "skip".data,
    author_raw := "A <a@b>".data, date := "d9".data }

/-- A well-formed request with a recognized event type from an address
outside the provider range. -/
def reqPush : Request :=
  { method := "POST".data, body := "x".data,
    event_key := some "repo:push".data, remote_addr := 0 }

/-- The same request with an unrecognized event type. -/
def reqOther : Request :=
  { method := "POST".data, body := "x".data,
    event_key := some "pullrequest:created".data, remote_addr := 0 }

/-- Two interleaved creation attempts for the same new email plus a full
handler invocation. -/
def opsDemo : List AuthorOp :=
  [Sum.inr (1, "e@x".data, "E".data),
   Sum.inr (1, "e@x".data, "F".data),
   Sum.inl (1, evDup)]

/-! ### Storage growth: every handler write appends rows, none are removed -/

theorem grows_refl {α : Type} (xs : List α) : Grows xs xs := ⟨[], by simp⟩

theorem grows_trans {α : Type} {xs ys zs : List α} :
    Grows xs ys → Grows ys zs → Grows xs zs
  | ⟨a, ha⟩, ⟨b, hb⟩ => ⟨a ++ b, by simp [ha, hb]⟩

theorem grows_append {α : Type} (xs ext : List α) : Grows xs (xs ++ ext) := ⟨ext, rfl⟩

theorem grows_mem {α : Type} {xs ys : List α} {a : α}
    (h : Grows xs ys) (ha : a ∈ xs) : a ∈ ys := by
  obtain ⟨zs, rfl⟩ := h
  exact List.mem_append_left _ ha

theorem ext_refl (s : Storage) : Ext s s :=
  ⟨rfl, rfl, grows_refl _, grows_refl _⟩

theorem ext_trans {s t u : Storage} (h1 : Ext s t) (h2 : Ext t u) : Ext s u :=
  ⟨h2.orgs_eq.trans h1.orgs_eq, h2.repos_eq.trans h1.repos_eq,
   grows_trans h1.authors_gr h2.authors_gr, grows_trans h1.commits_gr h2.commits_gr⟩

/-! ### Lemmas about the atomic storage operations -/

theorem goc_ext (st : Storage) (orgId : Nat) (email name : Str) :
    Ext st (getOrCreateAuthor st orgId email name).2 := by
  cases h : st.authors.find? (fun a => a.organization_id == orgId && a.email == email) with
  | some a =>
    simp only [getOrCreateAuthor, h]
    exact ext_refl st
  | none =>
    simp only [getOrCreateAuthor, h]
    exact ⟨rfl, rfl, grows_append _ _, grows_refl _⟩

/-- After get_or_create a matching author row exists. -/
theorem goc_mem (st : Storage) (orgId : Nat) (email name : Str) :
    ∃ a ∈ (getOrCreateAuthor st orgId email name).2.authors,
      a.organization_id = orgId ∧ a.email = email := by
  cases h : st.authors.find? (fun a => a.organization_id == orgId && a.email == email) with
  | some a =>
    have hp := List.find?_some h
    have hm := List.mem_of_find?_eq_some h
    simp only [Bool.and_eq_true, beq_iff_eq] at hp
    refine ⟨a, ?_, hp.1, hp.2⟩
    simp only [getOrCreateAuthor, h]
    exact hm
  | none =>
    refine ⟨{ id := st.next_author_id, organization_id := orgId,
              email := email, name := name }, ?_, rfl, rfl⟩
    simp [getOrCreateAuthor, h]

/-- get_or_create is a pure read when a matching row already exists. -/
theorem goc_found (st : Storage) (orgId : Nat) (email name : Str)
    (h : ∃ a ∈ st.authors, a.organization_id = orgId ∧ a.email = email) :
    (getOrCreateAuthor st orgId email name).2 = st := by
  have hs : (st.authors.find? (fun a => a.organization_id == orgId && a.email == email)).isSome := by
    rw [List.find?_isSome]
    obtain ⟨a, ham, h1, h2⟩ := h
    exact ⟨a, ham, by simp [h1, h2]⟩
  cases hf : st.authors.find? (fun a => a.organization_id == orgId && a.email == email) with
  | none => rw [hf] at hs; simp at hs
  | some a => simp only [getOrCreateAuthor, hf]

theorem cc_ext (st : Storage) (row : CommitRow) : Ext st (createCommit st row) := by
  by_cases h : st.commits.any
      (fun r => r.repository_id == row.repository_id && r.key == row.key)
  · simp only [createCommit, if_pos h]
    exact ext_refl st
  · simp only [createCommit, if_neg h]
    exact ⟨rfl, rfl, grows_refl _, grows_append _ _⟩

/-- After the guarded create a row with the same (repository, key) exists. -/
theorem cc_mem (st : Storage) (row : CommitRow) :
    ∃ r ∈ (createCommit st row).commits,
      r.repository_id = row.repository_id ∧ r.key = row.key := by
  by_cases h : st.commits.any
      (fun r => r.repository_id == row.repository_id && r.key == row.key)
  · obtain ⟨r, hm, hp⟩ := List.any_eq_true.mp h
    simp only [Bool.and_eq_true, beq_iff_eq] at hp
    refine ⟨r, ?_, hp.1, hp.2⟩
    simp only [createCommit, if_pos h]
    exact hm
  · refine ⟨row, ?_, rfl, rfl⟩
    simp only [createCommit, if_neg h]
    simp

/-- A duplicate (repository, key) makes the guarded create a no-op: the
IntegrityError is swallowed, the state is unchanged. -/
theorem cc_dup {st : Storage} {row : CommitRow}
    (h : ∃ r ∈ st.commits, r.repository_id = row.repository_id ∧ r.key = row.key) :
    createCommit st row = st := by
  obtain ⟨r, hm, h1, h2⟩ := h
  have hb : st.commits.any
      (fun r => r.repository_id == row.repository_id && r.key == row.key) = true := by
    rw [List.any_eq_true]
    exact ⟨r, hm, by simp [h1, h2]⟩
  simp [createCommit, hb]

/-! ### The per-request memo invariant -/

theorem memook_nil (orgId : Nat) (authors : List AuthorRow) : MemoOk orgId [] authors := by
  intro p hp
  simp at hp

theorem memook_grows {orgId : Nat} {m : Memo} {A B : List AuthorRow}
    (h : MemoOk orgId m A) (hg : Grows A B) : MemoOk orgId m B := by
  intro p hp
  obtain ⟨a, ham, h1, h2⟩ := h p hp
  exact ⟨a, grows_mem hg ham, h1, h2⟩

/-! ### Author resolution lemmas -/

theorem ra_ext (orgId : Nat) (raw email : Str) (m : Memo) (st : Storage) :
    Ext st (resolveAuthor orgId raw email m st).2.2 := by
  by_cases hl : 75 < email.length
  · simp only [resolveAuthor, if_pos hl]
    exact ext_refl st
  · simp only [resolveAuthor, if_neg hl]
    cases hlk : m.lookup email with
    | some aid => exact ext_refl st
    | none => exact goc_ext st orgId email (nameFromRaw raw)

/-- A successful association-list lookup comes from a member pair. -/
theorem lookup_mem {m : Memo} {e : Str} {aid : Nat}
    (h : m.lookup e = some aid) : (e, aid) ∈ m := by
  induction m with
  | nil => simp [List.lookup] at h
  | cons hd tl ih =>
    rw [show hd = (hd.1, hd.2) from rfl, List.lookup_cons] at h
    cases hk : e == hd.1 with
    | true =>
      rw [hk] at h
      simp only [Option.some.injEq] at h
      have he : e = hd.1 := by
        have := eq_of_beq hk
        exact this
      rw [List.mem_cons]
      left
      rw [he, ← h]
    | false =>
      rw [hk] at h
      exact List.mem_cons_of_mem _ (ih h)

/-- When the email is short enough, author resolution guarantees a
matching author row afterwards (found via the memo, found in storage, or
freshly created). -/
theorem ra_ensures (orgId : Nat) (raw email : Str) (m : Memo) (st : Storage)
    (hl : ¬ 75 < email.length) (hmo : MemoOk orgId m st.authors) :
    ∃ a ∈ (resolveAuthor orgId raw email m st).2.2.authors,
      a.organization_id = orgId ∧ a.email = email := by
  simp only [resolveAuthor, if_neg hl]
  cases hlk : m.lookup email with
  | some aid =>
    have hp := hmo (email, aid) (lookup_mem hlk)
    exact hp
  | none => exact goc_mem st orgId email (nameFromRaw raw)

/-- Replaying author resolution against a state that already has a
matching row (when one is needed) leaves the state unchanged and keeps the
memo invariant. -/
theorem ra_replay (orgId : Nat) (raw email : Str) (m2 : Memo) (S : Storage)
    (hex : ¬ 75 < email.length → ∃ a ∈ S.authors, a.organization_id = orgId ∧ a.email = email)
    (hmo : MemoOk orgId m2 S.authors) :
    (resolveAuthor orgId raw email m2 S).2.2 = S ∧
      MemoOk orgId (resolveAuthor orgId raw email m2 S).2.1 S.authors := by
  by_cases hl : 75 < email.length
  · simp only [resolveAuthor, if_pos hl]
    exact ⟨by trivial, hmo⟩
  · simp only [resolveAuthor, if_neg hl]
    cases hlk : m2.lookup email with
    | some aid => exact ⟨by trivial, hmo⟩
    | none =>
      have hst := goc_found S orgId email (nameFromRaw raw) (hex hl)
      refine ⟨hst, ?_⟩
      intro p hp
      rcases List.mem_cons.mp hp with hhd | htl
      · subst hhd
        exact hex hl
      · exact hmo p htl

/-- Author resolution preserves the memo invariant forward. -/
theorem ra_fwd_memo {orgId : Nat} {raw email : Str} {m : Memo} {st : Storage}
    (hmo : MemoOk orgId m st.authors) :
    MemoOk orgId (resolveAuthor orgId raw email m st).2.1
      (resolveAuthor orgId raw email m st).2.2.authors := by
  by_cases hl : 75 < email.length
  · simp only [resolveAuthor, if_pos hl]
    exact hmo
  · simp only [resolveAuthor, if_neg hl]
    cases hlk : m.lookup email with
    | some aid => exact hmo
    | none =>
      intro p hp
      rcases List.mem_cons.mp hp with hhd | htl
      · subst hhd
        exact goc_mem st orgId email (nameFromRaw raw)
      · exact memook_grows hmo (goc_ext st orgId email (nameFromRaw raw)).authors_gr p htl

/-! ### Per-commit step lemmas -/

theorem pc_ext {si : Str → Bool} {pd : Str → Str} {orgId repoId : Nat}
    {c : CommitData} {m : Memo} {st : Storage} {m1 : Memo} {st1 : Storage}
    (h : processCommit si pd orgId repoId c m st = some (m1, st1)) : Ext st st1 := by
  by_cases hsi : si c.message
  · simp only [processCommit, if_pos hsi, Option.some.injEq, Prod.mk.injEq] at h
    rw [← h.2]
    exact ext_refl st
  · cases hpr : parse_raw_user c.author_raw with
    | none => simp [processCommit, if_neg hsi, hpr] at h
    | some email =>
      simp only [processCommit, if_neg hsi, hpr, Option.some.injEq, Prod.mk.injEq] at h
      rw [← h.2]
      exact ext_trans (ra_ext orgId c.author_raw email m st) (cc_ext _ _)

theorem pc_fwd_memo {si : Str → Bool} {pd : Str → Str} {orgId repoId : Nat}
    {c : CommitData} {m : Memo} {st : Storage} {m1 : Memo} {st1 : Storage}
    (h : processCommit si pd orgId repoId c m st = some (m1, st1))
    (hmo : MemoOk orgId m st.authors) : MemoOk orgId m1 st1.authors := by
  by_cases hsi : si c.message
  · simp only [processCommit, if_pos hsi, Option.some.injEq, Prod.mk.injEq] at h
    rw [← h.1, ← h.2]
    exact hmo
  · cases hpr : parse_raw_user c.author_raw with
    | none => simp [processCommit, if_neg hsi, hpr] at h
    | some email =>
      simp only [processCommit, if_neg hsi, hpr, Option.some.injEq, Prod.mk.injEq] at h
      rw [← h.1, ← h.2]
      exact memook_grows (ra_fwd_memo hmo) (cc_ext _ _).authors_gr

/-- A crash of the commit step is deterministic in the commit data alone,
so it replays identically against any state and memo. -/
theorem pc_crash {si : Str → Bool} {pd : Str → Str} {orgId repoId : Nat}
    {c : CommitData} {m : Memo} {st : Storage}
    (h : processCommit si pd orgId repoId c m st = none) (m2 : Memo) (S : Storage) :
    processCommit si pd orgId repoId c m2 S = none := by
  by_cases hsi : si c.message
  · simp [processCommit, if_pos hsi] at h
  · cases hpr : parse_raw_user c.author_raw with
    | none => simp [processCommit, if_neg hsi, hpr]
    | some email => simp [processCommit, if_neg hsi, hpr] at h

/-- Replaying a successful commit step against any extension of its result
state is a pure no-op on storage. -/
theorem pc_replay {si : Str → Bool} {pd : Str → Str} {orgId repoId : Nat}
    {c : CommitData} {m : Memo} {st : Storage} {m1 : Memo} {st1 : Storage}
    (h : processCommit si pd orgId repoId c m st = some (m1, st1))
    (hmo : MemoOk orgId m st.authors)
    {S : Storage} {m2 : Memo} (hS : Ext st1 S) (hmo2 : MemoOk orgId m2 S.authors) :
    ∃ m2f, processCommit si pd orgId repoId c m2 S = some (m2f, S) ∧
      MemoOk orgId m2f S.authors := by
  by_cases hsi : si c.message
  · exact ⟨m2, by simp [processCommit, if_pos hsi], hmo2⟩
  · cases hpr : parse_raw_user c.author_raw with
    | none => simp [processCommit, if_neg hsi, hpr] at h
    | some email =>
      simp only [processCommit, if_neg hsi, hpr, Option.some.injEq, Prod.mk.injEq] at h
      have hex : ¬ 75 < email.length →
          ∃ a ∈ S.authors, a.organization_id = orgId ∧ a.email = email := by
        intro hl
        obtain ⟨a, ham, h1, h2⟩ := ra_ensures orgId c.author_raw email m st hl hmo
        have hst1 : a ∈ st1.authors := by
          rw [← h.2]
          exact grows_mem (cc_ext _ _).authors_gr ham
        exact ⟨a, grows_mem hS.authors_gr hst1, h1, h2⟩
      have hdupS : ∃ r ∈ S.commits, r.repository_id = repoId ∧ r.key = c.hash := by
        obtain ⟨r, hrm, h1, h2⟩ := cc_mem (resolveAuthor orgId c.author_raw email m st).2.2
          { repository_id := repoId, organization_id := orgId, key := c.hash,
            message := c.message,
            author := (resolveAuthor orgId c.author_raw email m st).1,
            date_added := pd c.date }
        have hst1 : r ∈ st1.commits := by
          rw [← h.2]
          exact hrm
        exact ⟨r, grows_mem hS.commits_gr hst1, h1, h2⟩
      obtain ⟨hstS, hmoS⟩ := ra_replay orgId c.author_raw email m2 S hex hmo2
      refine ⟨(resolveAuthor orgId c.author_raw email m2 S).2.1, ?_, hmoS⟩
      simp only [processCommit, if_neg hsi, hpr, Option.some.injEq, Prod.mk.injEq]
      refine ⟨by trivial, ?_⟩
      rw [hstS]
      exact cc_dup hdupS

/-! ### Commit-loop lemmas -/

theorem pcs_ext {si : Str → Bool} {pd : Str → Str} {orgId repoId : Nat}
    {cs : List CommitData} :
    ∀ {m : Memo} {st : Storage} {m1 : Memo} {st1 : Storage} {cr : Bool},
      processCommits si pd orgId repoId cs m st = (m1, st1, cr) → Ext st st1 := by
  induction cs with
  | nil =>
    intro m st m1 st1 cr h
    simp only [processCommits, Prod.mk.injEq] at h
    rw [← h.2.1]
    exact ext_refl st
  | cons c cs ih =>
    intro m st m1 st1 cr h
    cases hc : processCommit si pd orgId repoId c m st with
    | none =>
      simp only [processCommits, hc, Prod.mk.injEq] at h
      rw [← h.2.1]
      exact ext_refl st
    | some p =>
      obtain ⟨ma, sta⟩ := p
      simp only [processCommits, hc] at h
      exact ext_trans (pc_ext hc) (ih h)

theorem pcs_fwd_memo {si : Str → Bool} {pd : Str → Str} {orgId repoId : Nat}
    {cs : List CommitData} :
    ∀ {m : Memo} {st : Storage} {m1 : Memo} {st1 : Storage} {cr : Bool},
      processCommits si pd orgId repoId cs m st = (m1, st1, cr) →
      MemoOk orgId m st.authors → MemoOk orgId m1 st1.authors := by
  induction cs with
  | nil =>
    intro m st m1 st1 cr h hmo
    simp only [processCommits, Prod.mk.injEq] at h
    rw [← h.1, ← h.2.1]
    exact hmo
  | cons c cs ih =>
    intro m st m1 st1 cr h hmo
    cases hc : processCommit si pd orgId repoId c m st with
    | none =>
      simp only [processCommits, hc, Prod.mk.injEq] at h
      rw [← h.1, ← h.2.1]
      exact hmo
    | some p =>
      obtain ⟨ma, sta⟩ := p
      simp only [processCommits, hc] at h
      exact ih h (pc_fwd_memo hc hmo)

/-- Replaying a commit loop against any extension of its final state
leaves that state untouched and aborts at exactly the same point. -/
theorem pcs_replay {si : Str → Bool} {pd : Str → Str} {orgId repoId : Nat}
    {cs : List CommitData} :
    ∀ {m : Memo} {st : Storage} {m1 : Memo} {st1 : Storage} {cr : Bool},
      processCommits si pd orgId repoId cs m st = (m1, st1, cr) →
      MemoOk orgId m st.authors →
      ∀ {S : Storage} {m2 : Memo}, Ext st1 S → MemoOk orgId m2 S.authors →
      ∃ m2f, processCommits si pd orgId repoId cs m2 S = (m2f, S, cr) ∧
        MemoOk orgId m2f S.authors := by
  induction cs with
  | nil =>
    intro m st m1 st1 cr h hmo S m2 hS hmo2
    simp only [processCommits, Prod.mk.injEq] at h
    exact ⟨m2, by simp [processCommits, ← h.2.2], hmo2⟩
  | cons c cs ih =>
    intro m st m1 st1 cr h hmo S m2 hS hmo2
    cases hc : processCommit si pd orgId repoId c m st with
    | none =>
      simp only [processCommits, hc, Prod.mk.injEq] at h
      refine ⟨m2, ?_, hmo2⟩
      have hcS := pc_crash hc m2 S
      simp [processCommits, hcS, ← h.2.2]
    | some p =>
      obtain ⟨ma, sta⟩ := p
      simp only [processCommits, hc] at h
      have hmoa : MemoOk orgId ma sta.authors := pc_fwd_memo hc hmo
      obtain ⟨m2a, hrep, hmo2a⟩ := pc_replay hc hmo (ext_trans (pcs_ext h) hS) hmo2
      obtain ⟨m2f, hrest, hmof⟩ := ih h hmoa hS hmo2a
      exact ⟨m2f, by simp [processCommits, hrep, hrest], hmof⟩

/-! ### Change-loop lemmas -/

theorem pch_ext {si : Str → Bool} {pd : Str → Str} {orgId repoId : Nat}
    {chs : List Change} :
    ∀ {m : Memo} {st : Storage} {m1 : Memo} {st1 : Storage} {cr : Bool},
      processChanges si pd orgId repoId chs m st = (m1, st1, cr) → Ext st st1 := by
  induction chs with
  | nil =>
    intro m st m1 st1 cr h
    simp only [processChanges, Prod.mk.injEq] at h
    rw [← h.2.1]
    exact ext_refl st
  | cons ch chs ih =>
    intro m st m1 st1 cr h
    rcases hpc : processCommits si pd orgId repoId (ch.commits.getD []) m st
      with ⟨ma, sta, cra⟩
    cases cra with
    | true =>
      simp only [processChanges, hpc, Prod.mk.injEq] at h
      rw [← h.2.1]
      exact pcs_ext hpc
    | false =>
      simp only [processChanges, hpc] at h
      exact ext_trans (pcs_ext hpc) (ih h)

theorem pch_fwd_memo {si : Str → Bool} {pd : Str → Str} {orgId repoId : Nat}
    {chs : List Change} :
    ∀ {m : Memo} {st : Storage} {m1 : Memo} {st1 : Storage} {cr : Bool},
      processChanges si pd orgId repoId chs m st = (m1, st1, cr) →
      MemoOk orgId m st.authors → MemoOk orgId m1 st1.authors := by
  induction chs with
  | nil =>
    intro m st m1 st1 cr h hmo
    simp only [processChanges, Prod.mk.injEq] at h
    rw [← h.1, ← h.2.1]
    exact hmo
  | cons ch chs ih =>
    intro m st m1 st1 cr h hmo
    rcases hpc : processCommits si pd orgId repoId (ch.commits.getD []) m st
      with ⟨ma, sta, cra⟩
    cases cra with
    | true =>
      simp only [processChanges, hpc, Prod.mk.injEq] at h
      rw [← h.1, ← h.2.1]
      exact pcs_fwd_memo hpc hmo
    | false =>
      simp only [processChanges, hpc] at h
      exact ih h (pcs_fwd_memo hpc hmo)

/-- Replaying the change loop against any extension of its final state is
a storage no-op with an identical crash outcome. -/
theorem pch_replay {si : Str → Bool} {pd : Str → Str} {orgId repoId : Nat}
    {chs : List Change} :
    ∀ {m : Memo} {st : Storage} {m1 : Memo} {st1 : Storage} {cr : Bool},
      processChanges si pd orgId repoId chs m st = (m1, st1, cr) →
      MemoOk orgId m st.authors →
      ∀ {S : Storage} {m2 : Memo}, Ext st1 S → MemoOk orgId m2 S.authors →
      ∃ m2f, processChanges si pd orgId repoId chs m2 S = (m2f, S, cr) ∧
        MemoOk orgId m2f S.authors := by
  induction chs with
  | nil =>
    intro m st m1 st1 cr h hmo S m2 hS hmo2
    simp only [processChanges, Prod.mk.injEq] at h
    exact ⟨m2, by simp [processChanges, ← h.2.2], hmo2⟩
  | cons ch chs ih =>
    intro m st m1 st1 cr h hmo S m2 hS hmo2
    rcases hpc : processCommits si pd orgId repoId (ch.commits.getD []) m st
      with ⟨ma, sta, cra⟩
    cases cra with
    | true =>
      simp only [processChanges, hpc, Prod.mk.injEq] at h
      obtain ⟨m2a, hrep, hmo2a⟩ := pcs_replay hpc hmo
        (by rw [← h.2.1] at hS; exact hS) hmo2
      refine ⟨m2a, ?_, hmo2a⟩
      simp [processChanges, hrep, ← h.2.2]
    | false =>
      simp only [processChanges, hpc] at h
      have hmoa : MemoOk orgId ma sta.authors := pcs_fwd_memo hpc hmo
      obtain ⟨m2a, hrep, hmo2a⟩ := pcs_replay hpc hmo
        (ext_trans (pch_ext h) hS) hmo2
      obtain ⟨m2f, hrest, hmof⟩ := ih h hmoa hS hmo2a
      exact ⟨m2f, by simp [processChanges, hrep, hrest], hmof⟩

/-! ### Repository lookup stability under the name sync -/

theorem find?_map_stable {α : Type} (g : α → α) (p : α → Bool)
    (hpg : ∀ r, p (g r) = p r) :
    ∀ {l : List α} {a : α}, l.find? p = some a → (l.map g).find? p = some (g a) := by
  intro l
  induction l with
  | nil =>
    intro a h
    simp at h
  | cons x xs ih =>
    intro a h
    by_cases hx : p x
    · rw [List.find?_cons_of_pos _ hx] at h
      injection h with h
      subst h
      simp only [List.map_cons]
      rw [List.find?_cons_of_pos _ (by rw [hpg]; exact hx)]
    · rw [List.find?_cons_of_neg _ hx] at h
      simp only [List.map_cons]
      rw [List.find?_cons_of_neg _ (by rw [hpg]; exact hx)]
      exact ih h

/-- The repository filter never inspects the fields the name sync writes. -/
theorem repoQuery_update (orgId : Nat) (uuid : Str) (rid : Nat) (nm : Str) (r : RepoRow) :
    repoQuery orgId uuid
      (if r.id = rid then { r with config_name := some nm } else r) =
      repoQuery orgId uuid r := by
  by_cases h : r.id = rid <;> simp [h, repoQuery]

/-- C1 helper: one full handler run, split on the crash flag. -/
theorem pushEventWebhook_run {si : Str → Bool} {pd : Str → Str} {st st1 : Storage}
    {orgId : Nat} {ev : PushPayload} {repo : RepoRow} {m1 : Memo} {st2 : Storage} {cr : Bool}
    (hr : st.repos.find? (repoQuery orgId ev.repo_uuid) = some repo)
    (hst1 : st1 = (if repo.config_name = some ev.repo_full_name then st
      else { st with repos := updateName st.repos repo.id ev.repo_full_name }))
    (hpc : processChanges si pd orgId repo.id ev.changes [] st1 = (m1, st2, cr)) :
    pushEventWebhook si pd st orgId ev =
      (st2, if cr then some PushErr.authorCrash else none) := by
  subst hst1
  cases cr <;> simp [pushEventWebhook, hr, hpc]

/-- C1: processing the same push payload a second time, starting from the
state the first delivery produced, changes nothing: the repository name is
already synced, every author get_or_create finds its row, every commit
insert is absorbed as a duplicate, and a crash re-occurs at the same
commit.  In particular the set of Commit rows after two identical
deliveries equals the set after one. -/
theorem c1_push_idempotent (si : Str → Bool) (pd : Str → Str) (st : Storage)
    (orgId : Nat) (ev : PushPayload) :
    pushEventWebhook si pd (pushEventWebhook si pd st orgId ev).1 orgId ev =
      pushEventWebhook si pd st orgId ev := by
  cases hr : st.repos.find? (repoQuery orgId ev.repo_uuid) with
  | none => simp [pushEventWebhook, hr]
  | some repo =>
    by_cases hc : repo.config_name = some ev.repo_full_name
    · rcases hpc : processChanges si pd orgId repo.id ev.changes [] st with ⟨m1, st2, cr⟩
      have hrun := pushEventWebhook_run hr (by rw [if_pos hc]) hpc
      have hext : Ext st st2 := ext_trans
        (by rw [show st = (if repo.config_name = some ev.repo_full_name then st
            else { st with repos := updateName st.repos repo.id ev.repo_full_name })
          from (if_pos hc).symm] at hpc; exact ext_refl st) (pch_ext hpc)
      have hr2 : st2.repos.find? (repoQuery orgId ev.repo_uuid) = some repo := by
        rw [hext.repos_eq]
        exact hr
      obtain ⟨m2f, hrep, -⟩ :=
        pch_replay hpc (memook_nil orgId _) (ext_refl st2) (memook_nil orgId _)
      rw [hrun]
      have hrun2 := pushEventWebhook_run hr2 (by rw [if_pos hc]) hrep
      rw [hrun2]
    · rcases hpc : processChanges si pd orgId repo.id ev.changes []
        { st with repos := updateName st.repos repo.id ev.repo_full_name }
        with ⟨m1, st2, cr⟩
      have hrun := pushEventWebhook_run hr (by rw [if_neg hc]) hpc
      have hext : Ext { st with repos := updateName st.repos repo.id ev.repo_full_name } st2 :=
        pch_ext hpc
      have hrepos : st2.repos = updateName st.repos repo.id ev.repo_full_name :=
        hext.repos_eq
      have hr2 : st2.repos.find? (repoQuery orgId ev.repo_uuid) =
          some { repo with config_name := some ev.repo_full_name } := by
        rw [hrepos, updateName]
        have hmap := find?_map_stable
          (fun r => if r.id = repo.id then { r with config_name := some ev.repo_full_name } else r)
          (repoQuery orgId ev.repo_uuid)
          (repoQuery_update orgId ev.repo_uuid repo.id ev.repo_full_name) hr
        rw [hmap]
        simp
      obtain ⟨m2f, hrep, -⟩ :=
        pch_replay hpc (memook_nil orgId _) (ext_refl st2) (memook_nil orgId _)
      rw [hrun]
      have hrun2 := pushEventWebhook_run hr2 (by rw [if_pos rfl]) hrep
      rw [hrun2]

/-! ### Characterization of parse_raw_user on newline-free strings -/

theorem validEnd_true_scanEnd {raw : Str} {s e : Nat} (h : validEnd raw s e = true) :
    scanEnd raw s e = some e := by
  cases e with
  | zero => simp [scanEnd, h]
  | succ e => simp [scanEnd, h]

/-- On a newline-free string ending in the character >, the greedy end
scan from any admissible start position picks the final position. -/
theorem scanEnd_full {raw : Str} {s : Nat}
    (hnl : '\n' ∉ raw) (hne : raw ≠ [])
    (hlast : raw.get? (raw.length - 1) = some '>')
    (hs : s ≤ raw.length - 1) :
    scanEnd raw s raw.length = some (raw.length - 1) := by
  have hl : 0 < raw.length := List.length_pos.mpr hne
  have hveN : validEnd raw s raw.length = false := by
    have hnone : raw.get? raw.length = none := List.get?_eq_none.mpr (le_refl _)
    simp [validEnd, hnone]
  have hveL : validEnd raw s (raw.length - 1) = true := by
    have h1 : decide (s ≤ raw.length - 1) = true := decide_eq_true hs
    have h2 : (raw.get? (raw.length - 1) == some '>') = true := by
      rw [hlast]
      rfl
    have h3 : dollarAt raw (raw.length - 1 + 1) = true := by
      rw [Nat.sub_add_cancel hl]
      simp [dollarAt]
    have h4 : ((raw.drop s).take (raw.length - 1 - s)).all (fun ch => ch != '\n') = true := by
      rw [List.all_eq_true]
      intro ch hch
      have hmem : ch ∈ raw := List.mem_of_mem_drop (List.mem_of_mem_take hch)
      exact bne_iff_ne.mpr (fun he => hnl (he ▸ hmem))
    simp only [validEnd]
    rw [h1, h2, h3, h4]
    rfl
  obtain ⟨n, hn⟩ : ∃ n, raw.length = n + 1 :=
    ⟨raw.length - 1, (Nat.succ_pred_eq_of_pos hl).symm⟩
  have hn1 : raw.length - 1 = n := by omega
  rw [hn, scanEnd]
  rw [hn] at hveN
  rw [if_neg (by rw [hveN]; simp)]
  rw [hn1] at hveL
  rw [validEnd_true_scanEnd hveL]
  simp

/-- The leftmost-position scan returns the first admissible start. -/
theorem scanStart_spec {raw : Str} :
    ∀ (fuel s k : Nat), k < fuel →
      (∀ j, j < k → validStart raw (s + j) = false) →
      validStart raw (s + k) = true →
      scanStart raw s fuel = some (s + k) := by
  intro fuel
  induction fuel with
  | zero =>
    intro s k hk
    exact absurd hk (Nat.not_lt_zero k)
  | succ fuel ih =>
    intro s k hk hbefore hval
    by_cases h0 : validStart raw s
    · cases k with
      | zero => simp [scanStart, h0]
      | succ k =>
        have hz := hbefore 0 (Nat.succ_pos k)
        rw [Nat.add_zero] at hz
        rw [hz] at h0
        exact absurd h0 (by simp)
    · cases k with
      | zero =>
        rw [Nat.add_zero] at hval
        exact absurd hval h0
      | succ k =>
        have hstep : scanStart raw s (fuel + 1) = scanStart raw (s + 1) fuel := by
          simp [scanStart, h0]
        rw [hstep]
        have hres := ih (s + 1) k (by omega)
          (fun j hj => by
            have hb := hbefore (j + 1) (by omega)
            rw [show s + (j + 1) = s + 1 + j by omega] at hb
            exact hb)
          (by rw [show s + 1 + k = s + (k + 1) by omega]; exact hval)
        rw [hres]
        congr 1
        omega

/-- On a newline-free string that contains the character < (first at
position p) and ends with the character >, parse_raw_user returns exactly
the characters strictly between that first < and the trailing >. -/
theorem parse_raw_user_first {raw : Str} {p : Nat}
    (hnl : '\n' ∉ raw) (hne : raw ≠ [])
    (hlast : raw.get? (raw.length - 1) = some '>')
    (hp : raw.get? p = some '<')
    (hmin : ∀ i, i < p → raw.get? i ≠ some '<') :
    parse_raw_user raw = some ((raw.drop (p + 1)).take (raw.length - p - 2)) := by
  have hl : 0 < raw.length := List.length_pos.mpr hne
  have hplen : p < raw.length := by
    rcases List.get?_eq_some.mp hp with ⟨h, -⟩
    exact h
  have hpne : p ≠ raw.length - 1 := by
    intro he
    rw [he, hlast] at hp
    simp at hp
  have hple : p + 1 ≤ raw.length - 1 := by omega
  have hscanE : scanEnd raw (p + 1) raw.length = some (raw.length - 1) :=
    scanEnd_full hnl hne hlast hple
  have hvs : validStart raw (p + 1) = true := by
    have h1 : decide (0 < p + 1) = true := decide_eq_true (Nat.succ_pos p)
    have h2 : (raw.get? (p + 1 - 1) == some '<') = true := by
      rw [Nat.add_sub_cancel, hp]
      rfl
    have h3 : (scanEnd raw (p + 1) raw.length).isSome = true := by
      rw [hscanE]
      rfl
    simp only [validStart]
    rw [h1, h2, h3]
    rfl
  have hbefore : ∀ j, j < p + 1 → validStart raw (0 + j) = false := by
    intro j hj
    rw [Nat.zero_add]
    cases j with
    | zero => simp [validStart]
    | succ j =>
      have hj' : j < p := by omega
      have hne2 : (raw.get? j == some '<') = false :=
        beq_eq_false_iff_ne.mpr (hmin j hj')
      simp only [validStart]
      rw [Nat.add_sub_cancel, hne2]
      simp
  have hscanS : scanStart raw 0 (raw.length + 1) = some (0 + (p + 1)) :=
    scanStart_spec (raw.length + 1) 0 (p + 1) (by omega) hbefore
      (by rw [Nat.zero_add]; exact hvs)
  rw [Nat.zero_add] at hscanS
  simp only [parse_raw_user, hscanS, hscanE]
  congr 2
  omega

/-! ### Preservation of the CommitAuthor uniqueness invariant -/

theorem cc_authors (st : Storage) (row : CommitRow) :
    (createCommit st row).authors = st.authors := by
  by_cases h : st.commits.any
      (fun r => r.repository_id == row.repository_id && r.key == row.key) <;>
    simp [createCommit, h]

theorem inv_goc {st : Storage} (orgId : Nat) (email name : Str)
    (h : AuthorInv st.authors) :
    AuthorInv (getOrCreateAuthor st orgId email name).2.authors := by
  cases hf : st.authors.find? (fun a => a.organization_id == orgId && a.email == email) with
  | some a =>
    simp only [getOrCreateAuthor, hf]
    exact h
  | none =>
    simp only [getOrCreateAuthor, hf]
    have hnone := List.find?_eq_none.mp hf
    intro a ha b hb hoe hee
    rcases List.mem_append.mp ha with ha1 | ha1 <;>
      rcases List.mem_append.mp hb with hb1 | hb1
    · exact h a ha1 b hb1 hoe hee
    · exfalso
      have hb2 := List.mem_singleton.mp hb1
      apply hnone a ha1
      subst hb2
      simp at hoe hee
      simp [hoe, hee]
    · exfalso
      have ha2 := List.mem_singleton.mp ha1
      apply hnone b hb1
      subst ha2
      simp at hoe hee
      simp [← hoe, ← hee]
    · rw [List.mem_singleton.mp ha1, List.mem_singleton.mp hb1]

theorem inv_ra {orgId : Nat} {raw email : Str} {m : Memo} {st : Storage}
    (h : AuthorInv st.authors) :
    AuthorInv (resolveAuthor orgId raw email m st).2.2.authors := by
  by_cases hl : 75 < email.length
  · simp only [resolveAuthor, if_pos hl]
    exact h
  · simp only [resolveAuthor, if_neg hl]
    cases hlk : m.lookup email with
    | some aid => exact h
    | none => exact inv_goc orgId email (nameFromRaw raw) h

theorem inv_pc {si : Str → Bool} {pd : Str → Str} {orgId repoId : Nat}
    {c : CommitData} {m : Memo} {st : Storage} {m1 : Memo} {st1 : Storage}
    (hc : processCommit si pd orgId repoId c m st = some (m1, st1))
    (h : AuthorInv st.authors) : AuthorInv st1.authors := by
  by_cases hsi : si c.message
  · simp only [processCommit, if_pos hsi, Option.some.injEq, Prod.mk.injEq] at hc
    rw [← hc.2]
    exact h
  · cases hpr : parse_raw_user c.author_raw with
    | none => simp [processCommit, if_neg hsi, hpr] at hc
    | some email =>
      simp only [processCommit, if_neg hsi, hpr, Option.some.injEq, Prod.mk.injEq] at hc
      rw [← hc.2, cc_authors]
      exact inv_ra h

theorem inv_pcs {si : Str → Bool} {pd : Str → Str} {orgId repoId : Nat}
    {cs : List CommitData} :
    ∀ {m : Memo} {st : Storage} {m1 : Memo} {st1 : Storage} {cr : Bool},
      processCommits si pd orgId repoId cs m st = (m1, st1, cr) →
      AuthorInv st.authors → AuthorInv st1.authors := by
  induction cs with
  | nil =>
    intro m st m1 st1 cr h hin
    simp only [processCommits, Prod.mk.injEq] at h
    rw [← h.2.1]
    exact hin
  | cons c cs ih =>
    intro m st m1 st1 cr h hin
    cases hc : processCommit si pd orgId repoId c m st with
    | none =>
      simp only [processCommits, hc, Prod.mk.injEq] at h
      rw [← h.2.1]
      exact hin
    | some p =>
      obtain ⟨ma, sta⟩ := p
      simp only [processCommits, hc] at h
      exact ih h (inv_pc hc hin)

theorem inv_pch {si : Str → Bool} {pd : Str → Str} {orgId repoId : Nat}
    {chs : List Change} :
    ∀ {m : Memo} {st : Storage} {m1 : Memo} {st1 : Storage} {cr : Bool},
      processChanges si pd orgId repoId chs m st = (m1, st1, cr) →
      AuthorInv st.authors → AuthorInv st1.authors := by
  induction chs with
  | nil =>
    intro m st m1 st1 cr h hin
    simp only [processChanges, Prod.mk.injEq] at h
    rw [← h.2.1]
    exact hin
  | cons ch chs ih =>
    intro m st m1 st1 cr h hin
    rcases hpc : processCommits si pd orgId repoId (ch.commits.getD []) m st
      with ⟨ma, sta, cra⟩
    cases cra with
    | true =>
      simp only [processChanges, hpc, Prod.mk.injEq] at h
      rw [← h.2.1]
      exact inv_pcs hpc hin
    | false =>
      simp only [processChanges, hpc] at h
      exact ih h (inv_pcs hpc hin)

theorem inv_push {si : Str → Bool} {pd : Str → Str} {st : Storage}
    {orgId : Nat} {ev : PushPayload} (h : AuthorInv st.authors) :
    AuthorInv (pushEventWebhook si pd st orgId ev).1.authors := by
  cases hr : st.repos.find? (repoQuery orgId ev.repo_uuid) with
  | none =>
    simp only [pushEventWebhook, hr]
    exact h
  | some repo =>
    by_cases hc : repo.config_name = some ev.repo_full_name
    · rcases hpc : processChanges si pd orgId repo.id ev.changes [] st with ⟨m1, st2, cr⟩
      rw [pushEventWebhook_run hr (by rw [if_pos hc]) hpc]
      exact inv_pch hpc h
    · rcases hpc : processChanges si pd orgId repo.id ev.changes []
        { st with repos := updateName st.repos repo.id ev.repo_full_name }
        with ⟨m1, st2, cr⟩
      rw [pushEventWebhook_run hr (by rw [if_neg hc]) hpc]
      exact inv_pch hpc h

theorem inv_applyOp (si : Str → Bool) (pd : Str → Str) (op : AuthorOp)
    {st : Storage} (h : AuthorInv st.authors) :
    AuthorInv ((applyOp si pd st op).authors) := by
  match op with
  | Sum.inl (orgId, ev) => exact inv_push h
  | Sum.inr (orgId, email, name) => exact inv_goc orgId email name h

theorem inv_applyOps (si : Str → Bool) (pd : Str → Str) :
    ∀ (ops : List AuthorOp) (st : Storage), AuthorInv st.authors →
      AuthorInv ((applyOps si pd ops st).authors) := by
  intro ops
  induction ops with
  | nil =>
    intro st h
    exact h
  | cons op ops ih =>
    intro st h
    simp only [applyOps, List.foldl_cons]
    exact ih (applyOp si pd st op) (inv_applyOp si pd op h)

/-! ### Claims -/

/-- C2 counterexample: author resolution is not in the same atomic unit as
the commit insertion.  Delivering commit key h1 again with a new author:
the handler reports no error, the Commit table is unchanged (the insert
failed as a duplicate and was absorbed), yet the freshly created
CommitAuthor row persists -- the claimed state-unchanged-on-error property
of the combined unit is false. -/
theorem c2_counterexample :
    (pushEventWebhook si0 pd0 stDup 1 evDup).2 = none ∧
    (pushEventWebhook si0 pd0 stDup 1 evDup).1.commits = stDup.commits ∧
    (pushEventWebhook si0 pd0 stDup 1 evDup).1.authors ≠ stDup.authors := by
  decide

/-- C2 amended: only the Commit insertion is executed inside the atomic
unit; the author get-or-create happens before and outside it, so when the
commit insert fails on the uniqueness constraint the newly created author
row persists while the commit table is unchanged. -/
theorem c2_author_persists (si : Str → Bool) (pd : Str → Str) (orgId repoId : Nat)
    (c : CommitData) (m : Memo) (st : Storage) (email : Str)
    (hig : si c.message = false)
    (hpr : parse_raw_user c.author_raw = some email)
    (hlen : ¬ 75 < email.length)
    (hmemo : m.lookup email = none)
    (habs : st.authors.find? (fun a => a.organization_id == orgId && a.email == email) = none)
    (hdup : st.commits.any (fun r => r.repository_id == repoId && r.key == c.hash) = true) :
    processCommit si pd orgId repoId c m st =
      some ((email, st.next_author_id) :: m,
        { st with
            authors := st.authors ++
              [{ id := st.next_author_id, organization_id := orgId,
                 email := email, name := nameFromRaw c.author_raw }],
            next_author_id := st.next_author_id + 1 }) := by
  have hsi : ¬ si c.message = true := by simp [hig]
  have hdup2 : ∃ r ∈ st.commits, r.repository_id = repoId ∧ r.key = c.hash := by
    obtain ⟨r, hm, hp⟩ := List.any_eq_true.mp hdup
    simp only [Bool.and_eq_true, beq_iff_eq] at hp
    exact ⟨r, hm, hp.1, hp.2⟩
  have hcc : createCommit
      { st with
          authors := st.authors ++
            [{ id := st.next_author_id, organization_id := orgId,
               email := email, name := nameFromRaw c.author_raw }],
          next_author_id := st.next_author_id + 1 }
      { repository_id := repoId, organization_id := orgId, key := c.hash,
        message := c.message, author := some st.next_author_id,
        date_added := pd c.date } =
      { st with
          authors := st.authors ++
            [{ id := st.next_author_id, organization_id := orgId,
               email := email, name := nameFromRaw c.author_raw }],
          next_author_id := st.next_author_id + 1 } := by
    apply cc_dup
    obtain ⟨r, hm, h1, h2⟩ := hdup2
    exact ⟨r, hm, h1, h2⟩
  simp only [processCommit, if_neg hsi, hpr, resolveAuthor, if_neg hlen, hmemo,
    getOrCreateAuthor, habs]
  rw [hcc]

/-- C2 amended witness at a concrete duplicate delivery. -/
theorem c2_author_persists_witness :
    processCommit si0 pd0 1 1 cDup [] stDup =
      some ([("b@x".data, 0)],
        { stDup with
            authors := [{ id := 0, organization_id := 1, email := "b@x".data,
                          name := "Bob".data }],
            next_author_id := 1 }) := by
  have h := c2_author_persists si0 pd0 1 1 cDup [] stDup "b@x".data (by decide)
    (by decide) (by decide) (by decide) (by decide) (by decide)
  exact h.trans (by decide)

/-- C3: evaluation at the failing input.  For an author string with no
angle-bracket segment, re.search returns None, .group(0) raises
AttributeError, and the push handler aborts: the payload yields the
uncaught-exception outcome and no Commit row is written, instead of the
claimed graceful null-author ingestion. -/
theorem c3_crash_eval :
    parse_raw_user "John Doe".data = none ∧
    pushEventWebhook si0 pd0 stBase 1 evCrash = (stBase, some PushErr.authorCrash) := by
  decide

/-- C4 counterexample: with two angle brackets the code extracts the
segment after the FIRST opening bracket, not the last: the claim that the
email equals the substring between the last opening bracket and the
trailing closing bracket fails on this input. -/
theorem c4_counterexample :
    parse_raw_user "A <B> <c@d>".data = some "B> <c@d".data ∧
    parse_raw_user "A <B> <c@d>".data ≠ some "c@d".data := by
  decide

/-- C4 amended: for every newline-free raw author string that contains at
least one opening angle bracket (the first one at position p) and ends
with a closing angle bracket, the extracted author email is the substring
strictly between the FIRST opening bracket and the trailing closing
bracket. -/
theorem c4_extract_first (raw : Str) (p : Nat)
    (hnl : '\n' ∉ raw) (hne : raw ≠ [])
    (hlast : raw.get? (raw.length - 1) = some '>')
    (hp : raw.get? p = some '<')
    (hmin : ∀ i, i < p → raw.get? i ≠ some '<') :
    parse_raw_user raw = some ((raw.drop (p + 1)).take (raw.length - p - 2)) :=
  parse_raw_user_first hnl hne hlast hp hmin

/-- C4 amended witness on the example from the specification. -/
theorem c4_extract_first_witness :
    parse_raw_user "Jane Doe <jane@example.com>".data = some "jane@example.com".data := by
  have h := c4_extract_first "Jane Doe <jane@example.com>".data 9 (by decide) (by decide)
    (by decide) (by decide) (by decide)
  exact h.trans (by decide)

/-- C5: for a POST request with a resolvable organization, a non-empty
body, an event-type header present, and a source address outside the
provider range: a recognized event type is rejected with 401 and storage
is untouched, while an unrecognized event type is acknowledged with 204
before the IP check runs. -/
theorem c5_ip_gate (si : Str → Bool) (pd : Str → Str) (dec : Str → Option PushPayload)
    (st : Storage) (req : Request) (orgId : Nat) (k : Str)
    (hm : req.method = "POST".data)
    (ho : orgId ∈ st.orgs)
    (hb : req.body ≠ [])
    (hk : req.event_key = some k)
    (hip : inBitbucketRange req.remote_addr = false) :
    ((get_handler k).isSome → post si pd dec st req orgId = (401, st)) ∧
    (get_handler k = none → post si pd dec st req orgId = (204, st)) := by
  constructor
  · intro hh
    cases hg : get_handler k with
    | none =>
      rw [hg] at hh
      simp at hh
    | some t =>
      cases t
      simp [post, hm, ho, hb, hk, hg, hip]
  · intro hh
    simp [post, hm, ho, hb, hk, hh]

/-- C5 witness: both branches at concrete requests from the address 0. -/
theorem c5_ip_gate_witness :
    post si0 pd0 decode0 stBase reqPush 1 = (401, stBase) ∧
    post si0 pd0 decode0 stBase reqOther 1 = (204, stBase) := by
  constructor
  · exact (c5_ip_gate si0 pd0 decode0 stBase reqPush 1 "repo:push".data (by decide)
      (by decide) (by decide) (by decide) (by decide)).1 (by decide)
  · exact (c5_ip_gate si0 pd0 decode0 stBase reqOther 1 "pullrequest:created".data
      (by decide) (by decide) (by decide) (by decide) (by decide)).2 (by decide)

/-- C6: evaluation at the failing input.  A payload containing an
unparseable-author commit followed by a well-formed commit h2 aborts at
the first commit: the handler crashes and h2 is never written, although
the repository lookup succeeded -- the data-quality failure is
payload-scoped here, not commit-scoped as claimed. -/
theorem c6_abort_eval :
    pushEventWebhook si0 pd0 stBase 1 evAbort = (stBase, some PushErr.authorCrash) ∧
    ((pushEventWebhook si0 pd0 stBase 1 evAbort).1.commits.any
      (fun r => r.key == "h2".data)) = false := by
  decide

/-- C7: a commit whose extracted email exceeds 75 characters is stored
with a null author: the author table and the memo are untouched (no
lookup, no creation) and the commit row itself is still inserted. -/
theorem c7_oversized_email (si : Str → Bool) (pd : Str → Str) (orgId repoId : Nat)
    (c : CommitData) (m : Memo) (st : Storage) (email : Str)
    (hig : si c.message = false)
    (hpr : parse_raw_user c.author_raw = some email)
    (hlen : 75 < email.length)
    (hnodup : st.commits.any (fun r => r.repository_id == repoId && r.key == c.hash) = false) :
    processCommit si pd orgId repoId c m st =
      some (m, { st with commits := st.commits ++
        [{ repository_id := repoId, organization_id := orgId, key := c.hash,
           message := c.message, author := none, date_added := pd c.date }] }) := by
  have hsi : ¬ si c.message = true := by simp [hig]
  have hcc : createCommit st
      { repository_id := repoId, organization_id := orgId, key := c.hash,
        message := c.message, author := none, date_added := pd c.date } =
      { st with commits := st.commits ++
        [{ repository_id := repoId, organization_id := orgId, key := c.hash,
           message := c.message, author := none, date_added := pd c.date }] } := by
    simp only [createCommit]
    rw [if_neg (by rw [hnodup]; simp)]
  simp only [processCommit, if_neg hsi, hpr, resolveAuthor, if_pos hlen]
  rw [hcc]

/-- C7 witness at a 76-character email. -/
theorem c7_oversized_email_witness :
    processCommit si0 pd0 1 1 cLong [] stBase =
      some ([], { stBase with commits := stBase.commits ++
        [{ repository_id := 1, organization_id := 1, key := cLong.hash,
           message := cLong.message, author := none,
           date_added := pd0 cLong.date }] }) :=
  c7_oversized_email si0 pd0 1 1 cLong [] stBase longEmail (by decide) (by decide)
    (by decide) (by decide)

/-- C8: the at-most-one-CommitAuthor-per-(organization, email) invariant
is preserved by any sequence of atomic author-affecting operations --
whole push-handler invocations and bare get_or_create attempts in any
interleaving, which covers concurrent creation attempts for the same new
email since the storage layer serializes the atomic operations. -/
theorem c8_author_unique (si : Str → Bool) (pd : Str → Str) (st : Storage)
    (h : AuthorInv st.authors) (ops : List AuthorOp) :
    AuthorInv ((applyOps si pd ops st).authors) :=
  inv_applyOps si pd ops st h

/-- C8 witness: two interleaved creation attempts for one new email plus
a handler invocation starting from an empty author table. -/
theorem c8_author_unique_witness :
    AuthorInv ((applyOps si0 pd0 opsDemo stBase).authors) :=
  c8_author_unique si0 pd0 stBase
    (fun a ha => absurd ha (List.not_mem_nil a)) opsDemo

/-- C9: a commit whose message matches the ignore predicate is skipped
entirely: no author lookup or creation, no commit row, memo and storage
returned exactly as they were. -/
theorem c9_ignored_skips (si : Str → Bool) (pd : Str → Str) (orgId repoId : Nat)
    (c : CommitData) (m : Memo) (st : Storage)
    (hig : si c.message = true) :
    processCommit si pd orgId repoId c m st = some (m, st) := by
  simp [processCommit, hig]

/-- C9 witness with a concrete ignore predicate. -/
theorem c9_ignored_skips_witness :
    processCommit siSkip pd0 1 1 cSkip [] stBase = some ([], stBase) :=
  c9_ignored_skips siSkip pd0 1 1 cSkip [] stBase (by decide)

/-- C10: a change-set without the commits field is treated as holding zero
commits: processing the change list with it is identical to processing
the change list without it -- no error, no writes for that change-set,
and the remaining change-sets still processed. -/
theorem c10_missing_commits (si : Str → Bool) (pd : Str → Str) (orgId repoId : Nat)
    (chs1 chs2 : List Change) (ch : Change) (hch : ch.commits = none) :
    ∀ (m : Memo) (st : Storage),
      processChanges si pd orgId repoId (chs1 ++ ch :: chs2) m st =
        processChanges si pd orgId repoId (chs1 ++ chs2) m st := by
  induction chs1 with
  | nil =>
    intro m st
    simp [processChanges, hch, processCommits]
  | cons c1 t ih =>
    intro m st
    simp only [List.cons_append, processChanges]
    rcases hpc : processCommits si pd orgId repoId (c1.commits.getD []) m st
      with ⟨ma, sta, cra⟩
    cases cra with
    | true => simp [hpc]
    | false => simp [hpc, ih]

/-- C10 witness at a concrete change-set with the commits field absent. -/
theorem c10_missing_commits_witness :
    processChanges si0 pd0 1 1 [{ commits := none }] [] stBase =
      processChanges si0 pd0 1 1 [] [] stBase :=
  c10_missing_commits si0 pd0 1 1 [] [] { commits := none } (by decide) [] stBase

end Bitbucket
